import Mathlib

/- Shallow embedding of the go-mini-sqlite storage and query-execution
engine (internal/db/bptree.go, internal/db/database.go,
internal/sql/data_stmts.go, internal/sql/parser.go and the condition
evaluator / sort helpers of the sql package).

Modelling conventions, used throughout:
* A Go `map[string]string` row is modelled as an association list
  (`Row`); `rowGet` returns `""` for a missing key, matching Go's zero
  value for a map read, and `rowSet` models a map assignment.  Go map
  iteration order is unspecified; where the code ranges over a map we fix
  one order (schema order for the column map, list order for the
  assignment list of an update).  Every property proved below - which
  statement succeeds, which fails, and the resulting index - is
  independent of that choice.
* Go compares strings byte-wise; for valid UTF-8 this agrees with the
  character-wise order on `String` used here, and the byte indexing of
  `matchPattern` is modelled as character indexing (exact on ASCII).
* The `sync.RWMutex` in `BPTree` only guards concurrent access; the
  operations themselves are sequential and modelled directly.
* `sort.Slice` is modelled by `List.insertionSort`; on the key-distinct
  slices sorted here every comparison sort meeting the `sort.Slice`
  contract returns the same list, so the choice is irrelevant.
* File I/O in `Table.Save` / `LoadTable` (gob encode then decode) is
  modelled as a faithful round trip through `SnapshotRecord`;
  persistence failures are outside the model, so `Save` always succeeds.
* `float64` values produced by `fmt.Sscanf(s, "%f", ...)` are modelled as
  exact rationals over the decimal fragment (optional sign, digits,
  optional fractional part, trailing input ignored as `Sscanf` leaves it
  unread); exponents, hex floats, `Inf` and `NaN` are outside the model.
-/

/-- Column type tag: `db.ColType` (`INT` / `STRING`). -/
inductive ColType where
  | tInt
  | tString
deriving DecidableEq

/-- A table column definition: `db.Column`. -/
structure Column where
  name : String
  type : ColType
  primaryKey : Bool
  notNull : Bool
  unique : Bool
deriving DecidableEq

/-- A table schema: the ordered column definitions (`db.Schema`). -/
structure Schema where
  columns : List Column
deriving DecidableEq

/-- A row: Go `map[string]string`, modelled as an association list. -/
abbrev Row := List (String × String)

/-- Reading `row[k]` from a Go map: a missing key gives the zero value `""`. -/
def rowGet : Row → String → String
  | [], _ => ""
  | (k', v) :: r, k => if k' = k then v else rowGet r k

/-- Writing `row[k] = v` to a Go map. -/
def rowSet (r : Row) (k v : String) : Row :=
  (k, v) :: r.filter (fun p => p.1 ≠ k)

/-- An index entry: `db.Entry` (key plus full row). -/
structure Entry where
  key : String
  value : Row
deriving DecidableEq

/-- The "logical B+ tree" of bptree.go: a key-sorted list of entries.
The mutex is dropped (see the conventions above). -/
structure BPTree where
  order : Nat
  data : List Entry
deriving DecidableEq

/-- `db.NewBPTree`. -/
def NewBPTree (order : Nat) : BPTree := ⟨order, []⟩

/-- The update branch of `BPTree.Insert`: replace the value of the first
entry carrying the key; `none` when the key is absent. -/
def replaceEntry (key : String) (value : Row) : List Entry → Option (List Entry)
  | [] => none
  | e :: rest =>
    if e.key = key then some ({ e with value := value } :: rest)
    else (replaceEntry key value rest).map (e :: ·)

/-- Lexicographic order on character lists: Go's byte-wise `<` on
strings (the two agree on valid UTF-8). -/
def charListLt : List Char → List Char → Bool
  | [], [] => false
  | [], _ :: _ => true
  | _ :: _, [] => false
  | a :: as, b :: bs =>
    if a < b then true
    else if b < a then false
    else charListLt as bs

/-- Go `a < b` on strings. -/
def strLt (a b : String) : Bool := charListLt a.toList b.toList

/-- Go `a <= b` on strings (no greater-than the other way). -/
def strLe (a b : String) : Bool := ! strLt b a

/-- The key order handed to `sort.Slice` in `BPTree.Insert`: the
non-strict closure of the slice's `less` function. -/
def entryLe (a b : Entry) : Prop := strLe a.key b.key = true

instance : DecidableRel entryLe := fun a b => inferInstanceAs (Decidable (strLe a.key b.key = true))

/-- `BPTree.Insert`: replace the row when the key exists, otherwise
append the entry and re-sort by key. -/
def BPTree.insert (b : BPTree) (key : String) (value : Row) : BPTree :=
  match replaceEntry key value b.data with
  | some d => { b with data := d }
  | none => { b with data := List.insertionSort entryLe (b.data ++ [Entry.mk key value]) }

/-- `BPTree.Get`: point lookup (the linear scan variant; the
binary-search variant agrees on every sorted index). -/
def BPTree.get (b : BPTree) (key : String) : Option Row :=
  (b.data.find? (fun e => e.key == key)).map Entry.value

/-- `BPTree.Delete`: remove the first entry carrying the key, if any. -/
def BPTree.delete (b : BPTree) (key : String) : BPTree :=
  { b with data := b.data.eraseP (fun e => e.key == key) }

/-- `BPTree.GetAll`: every row, in stored (key) order. -/
def BPTree.getAll (b : BPTree) : List Row := b.data.map Entry.value

/-- `BPTree.Keys`. -/
def BPTree.keys (b : BPTree) : List String := b.data.map Entry.key

/-- `db.Table`. -/
structure Table where
  name : String
  schema : Schema
  filePath : String
  index : BPTree
deriving DecidableEq

/-- `Table.PrimaryKey`: the name of the first column flagged as primary
key, `""` when there is none. -/
def Table.primaryKey (t : Table) : String :=
  match t.schema.columns.find? (fun c => c.primaryKey) with
  | some c => c.name
  | none => ""

/-- One `m[k] = v` step while building a Go map. -/
def mapSet (m : List (String × Column)) (k : String) (v : Column) : List (String × Column) :=
  if m.any (fun p => p.1 == k) then m.map (fun p => if p.1 = k then (k, v) else p)
  else m ++ [(k, v)]

/-- `Schema.ColumnsMap`: name-to-column map, built in schema order. -/
def Schema.columnsMap (s : Schema) : List (String × Column) :=
  s.columns.foldl (fun m c => mapSet m c.name c) []

/-- `cols[colName]` on the column map (`ok` is `isSome`). -/
def mapGet : List (String × Column) → String → Option Column
  | [], _ => none
  | p :: m, k => if p.1 = k then some p.2 else mapGet m k

/-- `Table.SelectWhere`: full scan filtered by exact equality on one
column (its error result is always nil and is dropped). -/
def Table.selectWhere (t : Table) (column value : String) : List Row :=
  t.index.getAll.filter (fun row => rowGet row column == value)

/-- `Table.SelectAll`. -/
def Table.selectAll (t : Table) : List Row := t.index.getAll

/-- One column's NOT NULL / UNIQUE check from the validation loop of
`Table.Insert`; `some` carries the error. -/
def insertColCheck (t : Table) (values : Row) (p : String × Column) : Option String :=
  let v := rowGet values p.1
  if p.2.notNull ∧ v = "" then
    some ("column " ++ p.1 ++ " cannot be NULL")
  else if p.2.unique ∧ 0 < (t.selectWhere p.1 v).length then
    some ("value " ++ v ++ " already exists for UNIQUE column " ++ p.1)
  else none

/-- The primary-key auto-assignment of `Table.Insert`: an empty
primary-key value is replaced by `len(rows)+1` rendered in decimal. -/
def Table.assignPk (t : Table) (values : Row) : String × Row :=
  let pkName := t.primaryKey
  let pkVal := rowGet values pkName
  if pkVal = "" then
    let fresh := toString (t.index.getAll.length + 1)
    (fresh, rowSet values pkName fresh)
  else (pkVal, values)

/-- `Table.Insert`: check NOT NULL and UNIQUE over the schema's columns
against the current rows, auto-assign the primary key, insert into the
index.  The first component is the error (`none` = success); the second
is the table after the call - unchanged when validation fails.  `Save`
is modelled as succeeding. -/
def Table.insert (t : Table) (values : Row) : Option String × Table :=
  match t.schema.columnsMap.findSome? (insertColCheck t values) with
  | some e => (some e, t)
  | none =>
    let pkv := t.assignPk values
    (none, { t with index := t.index.insert pkv.1 pkv.2 })

/-- One assignment's validation in `Table.Update`: unknown column,
primary-key target, NOT NULL, then UNIQUE with rows of the matching set
exempt. -/
def updateColCheck (t : Table) (matched : List Row) (pkName : String) (a : String × String) : Option String :=
  match mapGet t.schema.columnsMap a.1 with
  | none => some ("column " ++ a.1 ++ " does not exist")
  | some col =>
    if a.1 = pkName then
      some ("cannot modify primary key " ++ pkName)
    else if col.notNull ∧ a.2 = "" then
      some ("column " ++ a.1 ++ " cannot be NULL")
    else if col.unique ∧ a.2 ≠ "" then
      if (t.selectWhere a.1 a.2).any
          (fun ex => ! matched.any (fun row => rowGet row pkName == rowGet ex pkName)) then
        some ("value " ++ a.2 ++ " already exists for UNIQUE column " ++ a.1)
      else none
    else none

deriving instance DecidableEq for Except

/-- `Table.Update`: resolve the matching rows first; an empty match set
returns count 0 with no validation and no write; otherwise validate
every assignment, then re-insert each matched row with the assignments
applied, threading the index through the loop as the Go code mutates it
in place.  The table component is the post-call state. -/
def Table.update (t : Table) (whereColumn whereValue : String) (updates : List (String × String)) : Except String Nat × Table :=
  let rows := t.selectWhere whereColumn whereValue
  if rows = [] then (Except.ok 0, t)
  else
    let pkName := t.primaryKey
    match updates.findSome? (updateColCheck t rows pkName) with
    | some e => (Except.error e, t)
    | none =>
      let st := rows.foldl (fun (st : BPTree × Nat) row =>
        let pk := rowGet row pkName
        match st.1.get pk with
        | none => st
        | some currentRow =>
          let newRow := updates.foldl (fun r a => rowSet r a.1 a.2) currentRow
          (st.1.insert pk newRow, st.2 + 1)) (t.index, 0)
      (Except.ok st.2, { t with index := st.1 })

/-- A WHERE condition: `sql.Condition`. -/
structure Condition where
  column : String
  operator : String
  value : String
deriving DecidableEq

/-- A single-combinator predicate: `sql.WhereClause`. -/
structure WhereClause where
  conditions : List Condition
  operator : String
deriving DecidableEq

/-- Pointer-based LIKE matcher state step count is bounded by this fuel;
`matchLoop` mirrors the main loop of `matchPattern` (two cursors, a
recorded last `%` position and the value position its current attempt
started from), with the loop trip made explicit in the fuel argument. -/
def matchLoop (value pattern : List Char) : Nat → Nat → Nat → Nat → Option Nat → Bool
  | 0, _, _, _, _ => false
  | fuel + 1, i, j, matchIdx, starIdx =>
    if i < value.length then
      if j < pattern.length ∧ pattern.getD j ' ' = '%' then
        matchLoop value pattern fuel i (j + 1) i (some j)
      else if j < pattern.length ∧
          (pattern.getD j ' ' = '_' ∨ pattern.getD j ' ' = value.getD i ' ') then
        matchLoop value pattern fuel (i + 1) (j + 1) matchIdx starIdx
      else
        match starIdx with
        | some s => matchLoop value pattern fuel (matchIdx + 1) (s + 1) (matchIdx + 1) (some s)
        | none => false
    else
      (pattern.drop j).all (fun c => c == '%')

/-- `matchPattern` on character lists: run the loop from the start state;
the fuel exceeds the worst-case trip count (proved in
`matchLoop_eq_spec` below), so the cutoff is never reached. -/
def matchPatternL (value pattern : List Char) : Bool :=
  matchLoop value pattern ((value.length + 1) * (pattern.length + 1)) 0 0 0 none

/-- `matchPattern` from the sql package: anchored `%` / `_` wildcard
matching with backtracking on the last `%`. -/
def matchPattern (value pattern : String) : Bool :=
  matchPatternL value.toList pattern.toList

/-- `evaluateCondition`: `=` is exact string equality, `LIKE` is the
wildcard matcher, any other operator is false. -/
def evaluateCondition (rowValue operator condValue : String) : Bool :=
  if operator = "=" then rowValue == condValue
  else if operator = "LIKE" then matchPattern rowValue condValue
  else false

/-- `WhereClause.Evaluate`: empty condition list is vacuously true,
`AND` needs every condition, anything else is the `OR` loop. -/
def WhereClause.evaluate (w : WhereClause) (row : Row) : Bool :=
  if w.conditions.isEmpty then true
  else if w.operator = "AND" then
    w.conditions.all (fun c => evaluateCondition (rowGet row c.column) c.operator c.value)
  else
    w.conditions.any (fun c => evaluateCondition (rowGet row c.column) c.operator c.value)

/-- `UpdateStmt.Exec` from data_stmts.go, after the table has been
resolved: filter by the where clause, return count 0 on an empty match
set, validate unknown column / primary-key flag / NOT NULL (this path
has no UNIQUE check), then re-insert a copy of each matched row with the
assignments applied.  The printed count is returned as the result. -/
def updateStmtExec (t : Table) (w : WhereClause) (updates : List (String × String)) : Except String Nat × Table :=
  let matchingRows := t.selectAll.filter (fun row => w.evaluate row)
  if matchingRows = [] then (Except.ok 0, t)
  else
    let pkName := t.primaryKey
    match updates.findSome? (fun a =>
      match mapGet t.schema.columnsMap a.1 with
      | none => some ("column " ++ a.1 ++ " does not exist")
      | some col =>
        if col.primaryKey then
          some ("cannot update PRIMARY KEY column " ++ a.1)
        else if col.notNull ∧ a.2 = "" then
          some ("column " ++ a.1 ++ " is NOT NULL")
        else none) with
    | some e => (Except.error e, t)
    | none =>
      let idx := matchingRows.foldl (fun idx row =>
        let pkVal := rowGet row pkName
        let updatedRow := updates.foldl (fun r a => rowSet r a.1 a.2) row
        idx.insert pkVal updatedRow) t.index
      (Except.ok matchingRows.length, { t with index := idx })

/-- The on-disk snapshot of one table (the gob-encoded record written by
`Table.Save`). -/
structure SnapshotRecord where
  name : String
  schema : Schema
  rows : List Row
deriving DecidableEq

/-- `Table.Save`: serialize name, schema and the full ordered row scan
(gob encoding and the file write are modelled as a faithful round
trip). -/
def Table.save (t : Table) : SnapshotRecord :=
  ⟨t.name, t.schema, t.index.getAll⟩

/-- `LoadTable`: rebuild a table from a snapshot with a fresh index,
re-inserting every row keyed by the schema's primary-key column. -/
def loadTable (path : String) (data : SnapshotRecord) : Table :=
  let base : Table := ⟨data.name, data.schema, path, NewBPTree 3⟩
  { base with
    index := data.rows.foldl (fun idx row => idx.insert (rowGet row base.primaryKey) row) base.index }

/-- The LIMIT stage of `SelectStmt.Exec`:
`if s.Limit > 0 && s.Limit < len(rows) { rows = rows[:s.Limit] }`.
The parser only produces non-negative limits (regex digits), so the
limit is a `Nat`; an absent LIMIT clause leaves the zero value 0. -/
def applyLimit (limit : Nat) (rows : List Row) : List Row :=
  if 0 < limit ∧ limit < rows.length then rows.take limit else rows

/-- Index invariant: entries strictly ascending by key (keys pairwise
distinct and sorted). -/
def BPTreeInv (b : BPTree) : Prop :=
  b.data.Pairwise (fun a b => strLt a.key b.key = true)

/-- Table invariant maintained by the engine: strictly sorted index and
every stored row carrying its own key in the primary-key column. -/
def TableInv (t : Table) : Prop :=
  BPTreeInv t.index ∧ ∀ e ∈ t.index.data, rowGet e.value t.primaryKey = e.key

instance (b : BPTree) : Decidable (BPTreeInv b) :=
  inferInstanceAs (Decidable (List.Pairwise _ _))

instance (t : Table) : Decidable (TableInv t) :=
  inferInstanceAs (Decidable (_ ∧ _))

/-- Numeric value of a run of decimal digits. -/
def digitsVal (l : List Char) : Nat :=
  l.foldl (fun acc c => 10 * acc + (c.toNat - '0'.toNat)) 0

/-- Unsigned part of the `Sscanf` float fragment: digits with an
optional fractional part, at least one digit in total, trailing input
ignored. -/
def parseUnsigned (l : List Char) : Option Rat :=
  let intDigits := l.takeWhile Char.isDigit
  let rest := l.drop intDigits.length
  match rest with
  | '.' :: rest2 =>
    let fracDigits := rest2.takeWhile Char.isDigit
    if intDigits.isEmpty ∧ fracDigits.isEmpty then none
    else some ((digitsVal intDigits : Rat) + (digitsVal fracDigits : Rat) / ((10 : Rat) ^ fracDigits.length))
  | _ => if intDigits.isEmpty then none else some (digitsVal intDigits)

/-- `parseNumber` (`fmt.Sscanf(s, "%f", &num)`) on the decimal fragment
described in the conventions: skip leading blanks, optional sign, then
the unsigned part. -/
def parseNumber (s : String) : Option Rat :=
  match s.toList.dropWhile (fun c => c = ' ') with
  | '-' :: rest => (parseUnsigned rest).map Neg.neg
  | '+' :: rest => parseUnsigned rest
  | l => parseUnsigned l

/-- The `less` closure of `sortRows`: numeric comparison when both
values parse as numbers, lexicographic otherwise, reversed for
`DESC`. -/
def sortLess (direction valI valJ : String) : Bool :=
  match parseNumber valI, parseNumber valJ with
  | some numI, some numJ =>
    if direction = "DESC" then decide (numJ < numI) else decide (numI < numJ)
  | _, _ =>
    if direction = "DESC" then strLt valJ valI else strLt valI valJ

/-- Inner loop of `sortRows` (`for j := i+1; j < len(rows); j++`), the
trip count made explicit: compare the live slots `i` and `j` and swap
unless `less(i, j)`.  Out-of-range reads (never reached from
`sortRows`) default to the empty row, and `List.set` ignores them like
a bounds-checked slice write never happening. -/
def sortRowsInner (column direction : String) : Nat → List Row → Nat → Nat → List Row
  | 0, rows, _, _ => rows
  | steps + 1, rows, i, j =>
    if ! sortLess direction (rowGet (rows.getD i []) column) (rowGet (rows.getD j []) column) then
      sortRowsInner column direction steps
        ((rows.set i (rows.getD j [])).set j (rows.getD i [])) i (j + 1)
    else
      sortRowsInner column direction steps rows i (j + 1)

/-- Outer loop of `sortRows` (`for i := 0; i < len(rows)-1; i++`). -/
def sortRowsOuter (column direction : String) : Nat → List Row → Nat → List Row
  | 0, rows, _ => rows
  | steps + 1, rows, i =>
    sortRowsOuter column direction steps
      (sortRowsInner column direction (rows.length - (i + 1)) rows i (i + 1)) (i + 1)

/-- `sortRows` from the sql package: the nested comparison/swap loops
over the row slice (swaps preserve the length, so both trip counts are
fixed up front exactly as the Go loop conditions fix them). -/
def sortRows (rows : List Row) (column direction : String) : List Row :=
  sortRowsOuter column direction (rows.length - 1) rows 0

/-- Declarative LIKE semantics, following the spec's words: matching is
anchored across the whole value, `%` matches any run of characters (the
rest of the pattern must match some suffix of the value), `_` matches
exactly one character, anything else matches itself. -/
def likeSpec : List Char → List Char → Bool
  | [], v => v.isEmpty
  | c :: ps, v =>
    if c = '%' then v.tails.any (fun s => likeSpec ps s)
    else
      match v with
      | [] => false
      | x :: vs => (c == '_' || c == x) && likeSpec ps vs

/-- Character-by-character segment match: the meaning of a `%`-free
pattern segment (`_` or an equal literal at every position, equal
lengths). -/
def segMatch : List Char → List Char → Bool
  | [], [] => true
  | c :: q, x :: w => (c == '_' || c == x) && segMatch q w
  | _, _ => false

/-- Declarative meaning of one `matchLoop` state: with no recorded `%`
the rest of the pattern must match the rest of the value; with a
recorded `%` at `s`, `%` followed by the pattern after it must match the
value from the position `m` where the current attempt started. -/
def loopSpec (value pattern : List Char) (i j m : Nat) : Option Nat → Bool
  | none => likeSpec (pattern.drop j) (value.drop i)
  | some s => likeSpec ('%' :: pattern.drop (s + 1)) (value.drop m)

/-- Reachable-state invariant of `matchLoop`: cursors in range and, when
a `%` at `s` is recorded, the pattern segment walked since it (which
contains no `%`) matches the value segment consumed since position
`m`. -/
def matchInv (value pattern : List Char) (i j m : Nat) : Option Nat → Prop
  | none => m ≤ i ∧ i ≤ value.length ∧ j ≤ pattern.length
  | some s => s < j ∧ j ≤ pattern.length ∧ m ≤ i ∧ i ≤ value.length ∧
      pattern.getD s ' ' = '%' ∧
      i - m = j - (s + 1) ∧
      (∀ c ∈ (pattern.drop (s + 1)).take (j - (s + 1)), c ≠ '%') ∧
      segMatch ((pattern.drop (s + 1)).take (j - (s + 1))) ((value.drop m).take (i - m)) = true

/-- Concrete fixture: one row keyed "2" under schema
(id INT PRIMARY KEY, val STRING). -/
def c6Table : Table :=
  ⟨"t", ⟨[⟨"id", ColType.tInt, true, false, false⟩, ⟨"val", ColType.tString, false, false, false⟩]⟩,
    "data/t.tbl", ⟨4, [⟨"2", [("id", "2"), ("val", "old")]⟩]⟩⟩

/-- Concrete fixture: one row under schema
(id INT PRIMARY KEY, email STRING UNIQUE). -/
def c3Table : Table :=
  ⟨"t", ⟨[⟨"id", ColType.tInt, true, false, false⟩, ⟨"email", ColType.tString, false, false, true⟩]⟩,
    "data/t.tbl", ⟨4, [⟨"1", [("id", "1"), ("email", "e")]⟩]⟩⟩

/-- Concrete fixture: one row under schema
(id INT PRIMARY KEY, name STRING). -/
def c1Table : Table :=
  ⟨"t", ⟨[⟨"id", ColType.tInt, true, false, false⟩, ⟨"name", ColType.tString, false, false, false⟩]⟩,
    "data/t.tbl", ⟨4, [⟨"1", [("id", "1"), ("name", "a")]⟩]⟩⟩

/-- Concrete fixture: a two-entry index with ascending keys. -/
def c10Tree : BPTree :=
  ⟨4, [⟨"1", [("id", "1")]⟩, ⟨"2", [("id", "2")]⟩]⟩

/- ------------------------------------------------------------------ -/
/- Theorems                                                           -/
/- ------------------------------------------------------------------ -/

theorem charListLt_irrefl : ∀ l, charListLt l l = false := by
  intro l
  induction l with
  | nil => rfl
  | cons a as ih => simp [charListLt, lt_irrefl, ih]

theorem charListLt_asymm : ∀ a b, charListLt a b = true → charListLt b a = false := by
  intro a
  induction a with
  | nil =>
    intro b h
    cases b with
    | nil => simp [charListLt] at h
    | cons x xs => rfl
  | cons a as ih =>
    intro b h
    cases b with
    | nil => simp [charListLt] at h
    | cons x xs =>
      by_cases hax : a < x
      · simp [charListLt, lt_asymm hax, hax]
      · by_cases hxa : x < a
        · simp [charListLt, hax, hxa] at h
        · have hax' : a = x := le_antisymm (not_lt.mp hxa) (not_lt.mp hax)
          subst hax'
          simp only [charListLt, if_neg hax] at h ⊢
          exact ih xs h

theorem charListLt_trans : ∀ a b c, charListLt a b = true → charListLt b c = true →
    charListLt a c = true := by
  intro a
  induction a with
  | nil =>
    intro b c hab hbc
    cases b with
    | nil => simp [charListLt] at hab
    | cons y ys =>
      cases c with
      | nil => simp [charListLt] at hbc
      | cons z zs => rfl
  | cons x xs ih =>
    intro b c hab hbc
    cases b with
    | nil => simp [charListLt] at hab
    | cons y ys =>
      cases c with
      | nil => simp [charListLt] at hbc
      | cons z zs =>
        by_cases hxy : x < y
        · by_cases hyz : y < z
          · simp [charListLt, lt_trans hxy hyz]
          · by_cases hzy : z < y
            · simp [charListLt, hyz, hzy] at hbc
            · have : y = z := le_antisymm (not_lt.mp hzy) (not_lt.mp hyz)
              subst this
              simp [charListLt, hxy]
        · by_cases hyx : y < x
          · simp [charListLt, hxy, hyx] at hab
          · have : x = y := le_antisymm (not_lt.mp hyx) (not_lt.mp hxy)
            subst this
            simp only [charListLt, if_neg hxy, if_neg hyx] at hab
            by_cases hyz : x < z
            · simp [charListLt, hyz]
            · by_cases hzy : z < x
              · simp [charListLt, hyz, hzy] at hbc
              · simp only [charListLt, if_neg hyz, if_neg hzy] at hbc ⊢
                exact ih ys zs hab hbc

theorem charListLt_of_not_lt_of_ne : ∀ a b, charListLt a b = false → a ≠ b →
    charListLt b a = true := by
  intro a
  induction a with
  | nil =>
    intro b h hne
    cases b with
    | nil => exact absurd rfl hne
    | cons x xs => simp [charListLt] at h
  | cons a as ih =>
    intro b h hne
    cases b with
    | nil => rfl
    | cons x xs =>
      by_cases hax : a < x
      · simp [charListLt, hax] at h
      · by_cases hxa : x < a
        · simp [charListLt, hxa]
        · have hax' : a = x := le_antisymm (not_lt.mp hxa) (not_lt.mp hax)
          subst hax'
          simp only [charListLt, if_neg hax] at h ⊢
          exact ih xs h (by simpa using hne)

theorem strLt_irrefl (a : String) : strLt a a = false :=
  charListLt_irrefl a.toList

theorem strLt_asymm {a b : String} (h : strLt a b = true) : strLt b a = false :=
  charListLt_asymm a.toList b.toList h

theorem strLt_trans {a b c : String} (h₁ : strLt a b = true) (h₂ : strLt b c = true) :
    strLt a c = true :=
  charListLt_trans a.toList b.toList c.toList h₁ h₂

theorem strLt_of_not_lt_of_ne {a b : String} (h : strLt a b = false) (hne : a ≠ b) :
    strLt b a = true := by
  refine charListLt_of_not_lt_of_ne a.toList b.toList h (fun hl => hne ?_)
  cases a with
  | mk da =>
    cases b with
    | mk db => exact congrArg String.mk (by simpa [String.toList] using hl)

instance : IsTotal Entry entryLe := by
  refine ⟨fun a b => ?_⟩
  by_cases h : strLt b.key a.key = true
  · exact Or.inr (by simp [entryLe, strLe, strLt_asymm h])
  · exact Or.inl (by simp only [entryLe, strLe, Bool.not_eq_true']; simpa using h)

instance : IsTrans Entry entryLe := by
  refine ⟨fun a b c h₁ h₂ => ?_⟩
  simp only [entryLe, strLe, Bool.not_eq_true', Bool.not_eq_true] at h₁ h₂ ⊢
  by_cases hca : strLt c.key a.key = true
  · exfalso
    by_cases hcb : c.key = b.key
    · rw [hcb] at hca
      simp [h₁] at hca
    · have hbc : strLt b.key c.key = true := strLt_of_not_lt_of_ne h₂ hcb
      have hba := strLt_trans hbc hca
      simp [h₁] at hba
  · simpa using hca

theorem replaceEntry_some_keys (k : String) (v : Row) :
    ∀ l d, replaceEntry k v l = some d → d.map Entry.key = l.map Entry.key := by
  intro l
  induction l with
  | nil => intro d h; simp [replaceEntry] at h
  | cons e rest ih =>
    intro d h
    by_cases he : e.key = k
    · simp [replaceEntry, he] at h
      subst h
      simp [he]
    · simp [replaceEntry, he] at h
      obtain ⟨d', hd', rfl⟩ := h
      simp [ih d' hd']

theorem replaceEntry_none_not_mem (k : String) (v : Row) :
    ∀ l, replaceEntry k v l = none → k ∉ l.map Entry.key := by
  intro l
  induction l with
  | nil => simp
  | cons e rest ih =>
    intro h
    by_cases he : e.key = k
    · simp [replaceEntry, he] at h
    · simp [replaceEntry, he] at h
      simp [he, ih h]
      exact fun hk => he hk.symm

theorem bptreeInv_iff_keys (b : BPTree) :
    BPTreeInv b ↔ (b.data.map Entry.key).Pairwise (fun x y => strLt x y = true) := by
  simp [BPTreeInv, List.pairwise_map]

/-- C10: the index operations preserve the strictly-ascending-keys
invariant (insert-or-replace and delete; `get` and `getAll` do not
mutate), and under the invariant `Keys` - and hence `GetAll`, which
walks the same entry list - enumerates in strictly ascending key
order. -/
theorem c10_index_inv (b : BPTree) (key : String) (value : Row) (h : BPTreeInv b) :
    BPTreeInv (b.insert key value) ∧ BPTreeInv (b.delete key) ∧
      b.keys.Pairwise (fun x y => strLt x y = true) ∧
      b.getAll = b.data.map Entry.value := by
  refine ⟨?_, ?_, ?_, rfl⟩
  · unfold BPTree.insert
    cases hrep : replaceEntry key value b.data with
    | some d =>
      simp only
      rw [bptreeInv_iff_keys] at h ⊢
      simpa [replaceEntry_some_keys key value b.data d hrep] using h
    | none =>
      simp only [BPTreeInv]
      have hfresh : key ∉ b.data.map Entry.key := replaceEntry_none_not_mem key value b.data hrep
      have hsorted0 : List.Sorted entryLe
          (List.insertionSort entryLe (b.data ++ [Entry.mk key value])) :=
        List.sorted_insertionSort entryLe (b.data ++ [Entry.mk key value])
      have hsorted : (List.insertionSort entryLe (b.data ++ [Entry.mk key value])).Pairwise entryLe :=
        hsorted0
      have hperm : List.Perm (List.insertionSort entryLe (b.data ++ [Entry.mk key value]))
          (b.data ++ [Entry.mk key value]) :=
        List.perm_insertionSort entryLe (b.data ++ [Entry.mk key value])
      have hnodup0 : ((b.data ++ [Entry.mk key value]).map Entry.key).Nodup := by
        rw [bptreeInv_iff_keys] at h
        have hne : (b.data.map Entry.key).Pairwise (fun x y => x ≠ y) := by
          refine h.imp (fun hxy => ?_)
          intro heq
          rw [heq, strLt_irrefl] at hxy
          exact Bool.false_ne_true hxy
        simp only [List.map_append, List.map_cons, List.map_nil]
        rw [List.nodup_append]
        exact ⟨hne, List.nodup_singleton key, by simpa using hfresh⟩
      have hnodup : ((List.insertionSort entryLe (b.data ++ [Entry.mk key value])).map Entry.key).Nodup :=
        hnodup0.perm (hperm.map Entry.key).symm
      have hnepair : (List.insertionSort entryLe (b.data ++ [Entry.mk key value])).Pairwise
          (fun a b => a.key ≠ b.key) := List.pairwise_map.mp hnodup
      refine (hsorted.and hnepair).imp ?_
      intro x y hxy
      obtain ⟨hle, hne⟩ := hxy
      have hflt : strLt y.key x.key = false := by
        simpa [entryLe, strLe] using hle
      exact strLt_of_not_lt_of_ne hflt (fun heq => hne heq.symm)
  · exact h.sublist (List.eraseP_sublist b.data)
  · rw [bptreeInv_iff_keys] at h
    exact h

/-- C7 counterexample: the claim says the select result is the first N
rows for every parsed limit N >= 0, but with a parsed `LIMIT 0` the code
(`s.Limit > 0 && ...`) leaves the full row list, not the first 0 rows. -/
theorem c7_limit_cex : applyLimit 0 [[("a", "1")]] ≠ List.take 0 [[("a", "1")]] := by
  decide

/-- C7 (amended): for a parsed limit N >= 1 the select result is the
first N rows of the filtered (and optionally ordered) list - a no-op
whenever N is at least the row count - while a parsed limit of 0 (also
the value of an absent LIMIT clause) leaves the row list unchanged. -/
theorem c7_limit_amended (limit : Nat) (rows : List Row) :
    applyLimit limit rows = if limit = 0 then rows else rows.take limit := by
  by_cases h0 : limit = 0
  · subst h0
    simp [applyLimit]
  · have hpos : 0 < limit := Nat.pos_of_ne_zero h0
    by_cases hlt : limit < rows.length
    · simp [applyLimit, hpos, hlt, h0]
    · have hle : rows.length ≤ limit := Nat.le_of_not_lt hlt
      simp [applyLimit, hlt, h0, List.take_of_length_le hle]

/-- C5 counterexample: two rows whose ordering values compare as equal
(both `"1"`) do not keep their relative order - the nested
comparison/swap loop swaps them, so the sort is not stable. -/
theorem c5_sort_stable_cex :
    sortRows [[("k", "1"), ("v", "a")], [("k", "1"), ("v", "b")]] "k" "ASC"
        = [[("k", "1"), ("v", "b")], [("k", "1"), ("v", "a")]] ∧
      sortLess "ASC" "1" "1" = false ∧
      ([("k", "1"), ("v", "a")] : Row) ≠ [("k", "1"), ("v", "b")] := by
  decide

/-- C5 (amended): the ORDER BY sort is a nested comparison/swap sort
that is not stable - it swaps whenever `less(i, j)` fails, so two rows
whose values compare as equal under the numeric-else-lexicographic
comparison come out in reversed relative order. -/
theorem c5_sort_tie_amended (r1 r2 : Row) (column direction : String)
    (h1 : sortLess direction (rowGet r1 column) (rowGet r2 column) = false)
    (_h2 : sortLess direction (rowGet r2 column) (rowGet r1 column) = false) :
    sortRows [r1, r2] column direction = [r2, r1] := by
  simp [sortRows, sortRowsOuter, sortRowsInner, List.getD, h1]

/-- C5 witness: the amended statement at two concrete equal-keyed rows. -/
theorem c5_sort_tie_amended_witness :
    sortRows [[("k", "7"), ("v", "x")], [("k", "7"), ("v", "y")]] "k" "DESC"
      = [[("k", "7"), ("v", "y")], [("k", "7"), ("v", "x")]] :=
  c5_sort_tie_amended [("k", "7"), ("v", "x")] [("k", "7"), ("v", "y")] "k" "DESC"
    (by decide) (by decide)

/-- C6 counterexample: with one row keyed "2" already present, an insert
omitting the primary key is assigned `len(rows)+1 = "2"`, an ordinal
that is already in use - so the assigned key is not "the next unused
ordinal", and the insert replaces the existing row (the row count stays
1). -/
theorem c6_autoassign_cex :
    (c6Table.insert [("val", "new")]).1 = none ∧
      (c6Table.assignPk [("val", "new")]).1 = "2" ∧
      "2" ∈ c6Table.index.keys ∧
      (c6Table.insert [("val", "new")]).2.index.data.length = c6Table.index.data.length := by
  decide

/-- C6 (amended): an insert that passes validation and omits (or gives
an empty string for) the primary-key column is assigned the current row
count plus one rendered as a decimal string - an ordinal that is not
necessarily unused: after deletions it can equal an existing key, in
which case the insert replaces that row - and the row is inserted into
the index under that key. -/
theorem c6_autoassign_amended (t : Table) (values : Row)
    (hok : t.schema.columnsMap.findSome? (insertColCheck t values) = none)
    (hpk : rowGet values t.primaryKey = "") :
    (t.assignPk values).1 = toString (t.index.getAll.length + 1) ∧
      (t.insert values).1 = none ∧
      (t.insert values).2.index
        = t.index.insert (toString (t.index.getAll.length + 1))
            (rowSet values t.primaryKey (toString (t.index.getAll.length + 1))) := by
  refine ⟨by simp [Table.assignPk, hpk], ?_, ?_⟩
  · simp [Table.insert, hok]
  · simp [Table.insert, hok, Table.assignPk, hpk]

/-- C6 witness: the amended statement at the concrete fixture. -/
theorem c6_autoassign_amended_witness :
    (c6Table.assignPk [("val", "new")]).1 = toString (c6Table.index.getAll.length + 1) ∧
      (c6Table.insert [("val", "new")]).1 = none ∧
      (c6Table.insert [("val", "new")]).2.index
        = c6Table.index.insert (toString (c6Table.index.getAll.length + 1))
            (rowSet [("val", "new")] c6Table.primaryKey (toString (c6Table.index.getAll.length + 1))) :=
  c6_autoassign_amended c6Table [("val", "new")] (by decide) (by decide)

/-- C1 counterexample: an update whose only assignment targets the
primary-key column succeeds with count 0 (no error) when the predicate
matches zero rows - both in `Table.Update` and in `UpdateStmt.Exec` the
empty match set returns before any assignment validation runs. -/
theorem c1_pk_update_cex :
    c1Table.primaryKey = "id" ∧
      c1Table.update "name" "zzz" [("id", "9")] = (Except.ok 0, c1Table) ∧
      updateStmtExec c1Table ⟨[⟨"name", "=", "zzz"⟩], "AND"⟩ [("id", "9")]
        = (Except.ok 0, c1Table) := by
  decide

/-- C1 (amended): an update whose assignments target the primary-key
column fails with an error - and leaves the table unchanged - whenever
the predicate matches at least one row; when the match set (resolved
first) is empty, the update instead succeeds with count 0 and skips
assignment validation.  Stated for both update paths. -/
theorem c1_pk_update_amended (t : Table) (whereColumn whereValue : String) (w : WhereClause)
    (updates : List (String × String)) (v : String) (col : Column)
    (hpk : (t.primaryKey, v) ∈ updates)
    (hcol : mapGet t.schema.columnsMap t.primaryKey = some col)
    (hflag : col.primaryKey = true) :
    (t.selectWhere whereColumn whereValue = [] →
        t.update whereColumn whereValue updates = (Except.ok 0, t)) ∧
      (t.selectWhere whereColumn whereValue ≠ [] →
        ∃ e, t.update whereColumn whereValue updates = (Except.error e, t)) ∧
      (t.selectAll.filter (fun row => w.evaluate row) = [] →
        updateStmtExec t w updates = (Except.ok 0, t)) ∧
      (t.selectAll.filter (fun row => w.evaluate row) ≠ [] →
        ∃ e, updateStmtExec t w updates = (Except.error e, t)) := by
  refine ⟨fun h => by simp [Table.update, h], fun h => ?_, fun h => by simp [updateStmtExec, h], fun h => ?_⟩
  · cases hfind : updates.findSome?
        (updateColCheck t (t.selectWhere whereColumn whereValue) t.primaryKey) with
    | none =>
      exfalso
      have hnone := List.findSome?_eq_none_iff.mp hfind (t.primaryKey, v) hpk
      simp [updateColCheck, hcol] at hnone
    | some e =>
      exact ⟨e, by simp [Table.update, h, hfind]⟩
  · cases hfind : updates.findSome? (fun a =>
        match mapGet t.schema.columnsMap a.1 with
        | none => some ("column " ++ a.1 ++ " does not exist")
        | some col =>
          if col.primaryKey then
            some ("cannot update PRIMARY KEY column " ++ a.1)
          else if col.notNull ∧ a.2 = "" then
            some ("column " ++ a.1 ++ " is NOT NULL")
          else none) with
    | none =>
      exfalso
      have hnone := List.findSome?_eq_none_iff.mp hfind (t.primaryKey, v) hpk
      simp [hcol, hflag] at hnone
    | some e =>
      exact ⟨e, by simp [updateStmtExec, h, hfind]⟩

/-- C1 witness: the amended statement at a concrete table, one
predicate matching a row and one matching none. -/
theorem c1_pk_update_amended_witness :
    c1Table.update "name" "q" [("id", "9")] = (Except.ok 0, c1Table) ∧
      ∃ e, c1Table.update "name" "a" [("id", "9")] = (Except.error e, c1Table) := by
  have hA := c1_pk_update_amended c1Table "name" "q" ⟨[], "AND"⟩ [("id", "9")] "9"
    ⟨"id", ColType.tInt, true, false, false⟩ (by decide) (by decide) rfl
  have hB := c1_pk_update_amended c1Table "name" "a" ⟨[], "AND"⟩ [("id", "9")] "9"
    ⟨"id", ColType.tInt, true, false, false⟩ (by decide) (by decide) rfl
  exact ⟨hA.1 (by decide), hB.2.1 (by decide)⟩

/-- C9 counterexample: an insert carrying a value for a column absent
from the schema is not rejected - validation only ranges over schema
columns - and the row is stored in the index together with the unknown
column's value. -/
theorem c9_unknown_column_cex :
    mapGet c1Table.schema.columnsMap "junk" = none ∧
      (c1Table.insert [("id", "2"), ("junk", "x")]).1 = none ∧
      (c1Table.insert [("id", "2"), ("junk", "x")]).2.index.getAll
        = [[("id", "1"), ("name", "a")], [("id", "2"), ("junk", "x")]] := by
  decide

/-- C9 (amended): the update paths reject an assignment naming a column
absent from the schema before any index mutation, provided the match
set (resolved first) is nonempty; inserts perform no such check - a
value for an unknown column is accepted and stored with the row. -/
theorem c9_unknown_column_amended (t : Table) (whereColumn whereValue : String) (w : WhereClause)
    (updates : List (String × String)) (cname v : String)
    (hmem : (cname, v) ∈ updates)
    (hunknown : mapGet t.schema.columnsMap cname = none) :
    (t.selectWhere whereColumn whereValue ≠ [] →
        ∃ e, t.update whereColumn whereValue updates = (Except.error e, t)) ∧
      (t.selectAll.filter (fun row => w.evaluate row) ≠ [] →
        ∃ e, updateStmtExec t w updates = (Except.error e, t)) := by
  refine ⟨fun h => ?_, fun h => ?_⟩
  · cases hfind : updates.findSome?
        (updateColCheck t (t.selectWhere whereColumn whereValue) t.primaryKey) with
    | none =>
      exfalso
      have hnone := List.findSome?_eq_none_iff.mp hfind (cname, v) hmem
      simp [updateColCheck, hunknown] at hnone
    | some e =>
      exact ⟨e, by simp [Table.update, h, hfind]⟩
  · cases hfind : updates.findSome? (fun a =>
        match mapGet t.schema.columnsMap a.1 with
        | none => some ("column " ++ a.1 ++ " does not exist")
        | some col =>
          if col.primaryKey then
            some ("cannot update PRIMARY KEY column " ++ a.1)
          else if col.notNull ∧ a.2 = "" then
            some ("column " ++ a.1 ++ " is NOT NULL")
          else none) with
    | none =>
      exfalso
      have hnone := List.findSome?_eq_none_iff.mp hfind (cname, v) hmem
      simp [hunknown] at hnone
    | some e =>
      exact ⟨e, by simp [updateStmtExec, h, hfind]⟩

/-- C9 witness: the amended statement at a concrete table with one
matching row and an assignment to the unknown column "junk". -/
theorem c9_unknown_column_amended_witness :
    ∃ e, c1Table.update "name" "a" [("junk", "x")] = (Except.error e, c1Table) :=
  (c9_unknown_column_amended c1Table "name" "a" ⟨[], "AND"⟩ [("junk", "x")] "junk" "x"
    (by decide) (by decide)).1 (by decide)

/-- C3: inserting a row whose value in a UNIQUE column already occurs in
some stored row fails with a validation error and leaves the table - in
particular its index, row count and rows - unchanged. -/
theorem c3_unique_insert (t : Table) (values : Row) (cname : String) (col : Column)
    (hmem : (cname, col) ∈ t.schema.columnsMap) (huniq : col.unique = true)
    (hexist : ∃ row ∈ t.index.getAll, rowGet row cname = rowGet values cname) :
    ∃ e, t.insert values = (some e, t) := by
  have hsome : t.schema.columnsMap.findSome? (insertColCheck t values) ≠ none := by
    intro hnone
    have hall := List.findSome?_eq_none_iff.mp hnone (cname, col) hmem
    obtain ⟨row, hrowmem, hroweq⟩ := hexist
    have hmemfil : row ∈ t.selectWhere cname (rowGet values cname) := by
      simp only [Table.selectWhere, List.mem_filter]
      exact ⟨hrowmem, by simp [hroweq]⟩
    have hlen : 0 < (t.selectWhere cname (rowGet values cname)).length :=
      List.length_pos_of_mem hmemfil
    by_cases hnn : col.notNull = true ∧ rowGet values cname = ""
    · simp [insertColCheck, hnn] at hall
    · simp [insertColCheck, hnn, huniq, hlen] at hall
  cases hfind : t.schema.columnsMap.findSome? (insertColCheck t values) with
  | none => exact absurd hfind hsome
  | some e => exact ⟨e, by simp [Table.insert, hfind]⟩

/-- C3 witness: the concrete fixture already holds email "e"; inserting
a second row with email "e" fails and leaves the table unchanged. -/
theorem c3_unique_insert_witness :
    ∃ e, c3Table.insert [("id", "2"), ("email", "e")] = (some e, c3Table) :=
  c3_unique_insert c3Table [("id", "2"), ("email", "e")] "email"
    ⟨"email", ColType.tString, false, false, true⟩ (by decide) rfl
    ⟨[("id", "1"), ("email", "e")], by decide, by decide⟩

/-- C10 witness: the invariant statement at a concrete two-entry index
and a fresh key. -/
theorem c10_index_inv_witness :
    BPTreeInv (c10Tree.insert "3" [("id", "3")]) ∧ BPTreeInv (c10Tree.delete "3") ∧
      c10Tree.keys.Pairwise (fun x y => strLt x y = true) ∧
      c10Tree.getAll = c10Tree.data.map Entry.value :=
  c10_index_inv c10Tree "3" [("id", "3")] (by decide)

theorem rowGet_rowSet (r : Row) (k v : String) : rowGet (rowSet r k v) k = v := by
  simp [rowSet, rowGet]

theorem assignPk_rowGet (t : Table) (values : Row) :
    rowGet (t.assignPk values).2 t.primaryKey = (t.assignPk values).1 := by
  unfold Table.assignPk
  by_cases h : rowGet values t.primaryKey = ""
  · simp [h, rowGet_rowSet]
  · simp [h]

theorem entryLe_of_strLt {a b : Entry} (h : strLt a.key b.key = true) : entryLe a b := by
  simp [entryLe, strLe, strLt_asymm h]

theorem replaceEntry_eq_none (k : String) (v : Row) :
    ∀ l : List Entry, k ∉ l.map Entry.key → replaceEntry k v l = none := by
  intro l
  induction l with
  | nil => intro _; rfl
  | cons e rest ih =>
    intro h
    have h1 : e.key ≠ k := by
      intro heq
      exact h (by simp [heq])
    have h2 : k ∉ rest.map Entry.key := fun hm => h (by simp [hm])
    simp [replaceEntry, h1, ih h2]

theorem replaceEntry_some_filter (k pk : String) (r : Row) (hr : rowGet r pk = k) :
    ∀ (l : List Entry) (d : List Entry),
      l.Pairwise (fun a b => strLt a.key b.key = true) →
      (∀ e ∈ l, rowGet e.value pk = e.key) →
      replaceEntry k r l = some d →
      d.filter (fun e => rowGet e.value pk == k) = [⟨k, r⟩] := by
  intro l
  induction l with
  | nil => intro d _ _ h; simp [replaceEntry] at h
  | cons e rest ih =>
    intro d hpair hkeys hrep
    by_cases he : e.key = k
    · simp only [replaceEntry, if_pos he, Option.some.injEq] at hrep
      subst hrep
      have hrest : ∀ e' ∈ rest, ¬((rowGet e'.value pk == k) = true) := by
        intro e' he'
        have hlt : strLt e.key e'.key = true := (List.pairwise_cons.mp hpair).1 e' he'
        have hne : e'.key ≠ k := by
          intro heq
          rw [he, heq, strLt_irrefl] at hlt
          exact Bool.false_ne_true hlt
        rw [hkeys e' (List.mem_cons_of_mem e he')]
        simpa using hne
      rw [List.filter_cons_of_pos (by simpa using hr)]
      rw [List.filter_eq_nil_iff.mpr hrest]
      rw [he]
    · simp only [replaceEntry, if_neg he] at hrep
      obtain ⟨d', hd', rfl⟩ := Option.map_eq_some'.mp hrep
      have hek : rowGet e.value pk = e.key := hkeys e (List.mem_cons_self e rest)
      rw [List.filter_cons_of_neg (by simp [hek, he])]
      exact ih d' (List.pairwise_cons.mp hpair).2
        (fun e' h' => hkeys e' (List.mem_cons_of_mem e h')) hd'

theorem insert_filter_pk (b : BPTree) (k pk : String) (r : Row)
    (hpair : b.data.Pairwise (fun a b => strLt a.key b.key = true))
    (hkeys : ∀ e ∈ b.data, rowGet e.value pk = e.key)
    (hr : rowGet r pk = k) :
    (b.insert k r).data.filter (fun e => rowGet e.value pk == k) = [⟨k, r⟩] := by
  unfold BPTree.insert
  cases hrep : replaceEntry k r b.data with
  | some d =>
    exact replaceEntry_some_filter k pk r hr b.data d hpair hkeys hrep
  | none =>
    simp only
    have hfresh := replaceEntry_none_not_mem k r b.data hrep
    have hperm : List.Perm (List.insertionSort entryLe (b.data ++ [Entry.mk k r]))
        (b.data ++ [Entry.mk k r]) := List.perm_insertionSort _ _
    have hpf := hperm.filter (fun e => rowGet e.value pk == k)
    have hbase : (b.data ++ [Entry.mk k r]).filter (fun e => rowGet e.value pk == k)
        = [⟨k, r⟩] := by
      rw [List.filter_append]
      have h1 : b.data.filter (fun e => rowGet e.value pk == k) = [] := by
        rw [List.filter_eq_nil_iff]
        intro e he
        have hek : rowGet e.value pk = e.key := hkeys e he
        have hne : e.key ≠ k := by
          intro heq
          exact hfresh (heq ▸ List.mem_map_of_mem Entry.key he)
        simp [hek, hne]
      have h2 : ([Entry.mk k r] : List Entry).filter (fun e => rowGet e.value pk == k)
          = [⟨k, r⟩] := by
        simp [hr]
      rw [h1, h2]
      rfl
    rw [hbase] at hpf
    exact List.perm_singleton.mp hpf

/-- C2: after a successful insert, selecting on the primary-key column
for the stored row's key returns exactly one row, and that row is the
inserted row (with its auto-assigned primary-key value when one was
assigned). -/
theorem c2_insert_select (t : Table) (values : Row) (hinv : TableInv t)
    (hok : (t.insert values).1 = none) :
    ((t.insert values).2).selectWhere t.primaryKey (t.assignPk values).1
      = [(t.assignPk values).2] := by
  cases hfind : t.schema.columnsMap.findSome? (insertColCheck t values) with
  | some e => simp [Table.insert, hfind] at hok
  | none =>
    have hins : (t.insert values).2
        = { t with index := t.index.insert (t.assignPk values).1 (t.assignPk values).2 } := by
      simp [Table.insert, hfind]
    rw [hins]
    show (BPTree.getAll _).filter _ = _
    rw [BPTree.getAll, List.filter_map]
    have hflt := insert_filter_pk t.index (t.assignPk values).1 t.primaryKey
      (t.assignPk values).2 hinv.1 hinv.2 (assignPk_rowGet t values)
    show List.map Entry.value (List.filter _ _) = _
    rw [show ((fun row => rowGet row t.primaryKey == (t.assignPk values).1) ∘ Entry.value)
        = (fun e => rowGet e.value t.primaryKey == (t.assignPk values).1) from rfl]
    rw [hflt]
    rfl

/-- C2 witness: the statement at a concrete table and insert. -/
theorem c2_insert_select_witness :
    ((c3Table.insert [("id", "2"), ("email", "f")]).2).selectWhere c3Table.primaryKey
        (c3Table.assignPk [("id", "2"), ("email", "f")]).1
      = [(c3Table.assignPk [("id", "2"), ("email", "f")]).2] :=
  c2_insert_select c3Table [("id", "2"), ("email", "f")] (by decide) (by decide)

theorem load_foldl (pk : String) (n : Nat) : ∀ (todo done : List Entry),
    (done ++ todo).Pairwise (fun a b => strLt a.key b.key = true) →
    (∀ e ∈ todo, rowGet e.value pk = e.key) →
    (todo.map Entry.value).foldl (fun idx row => idx.insert (rowGet row pk) row)
        (BPTree.mk n done)
      = ⟨n, done ++ todo⟩ := by
  intro todo
  induction todo with
  | nil => intro done _ _; simp
  | cons e rest ih =>
    intro done hpair hkeys
    simp only [List.map_cons, List.foldl_cons]
    have hek : rowGet e.value pk = e.key := hkeys e (List.mem_cons_self e rest)
    rw [hek]
    have hfresh : e.key ∉ done.map Entry.key := by
      intro hmem
      obtain ⟨d, hd, hdk⟩ := List.mem_map.mp hmem
      have hlt : strLt d.key e.key = true :=
        (List.pairwise_append.mp hpair).2.2 d hd e (List.mem_cons_self e rest)
      rw [hdk, strLt_irrefl] at hlt
      exact Bool.false_ne_true hlt
    have hrep : replaceEntry e.key e.value done = none :=
      replaceEntry_eq_none e.key e.value done hfresh
    have hins : BPTree.insert ⟨n, done⟩ e.key e.value = ⟨n, done ++ [e]⟩ := by
      unfold BPTree.insert
      simp only [hrep]
      have hsub : List.Sublist (done ++ [e]) (done ++ (e :: rest)) :=
        (List.append_sublist_append_left done).mpr
          (List.cons_sublist_cons.mpr (List.nil_sublist rest))
      have hp : (done ++ [e]).Pairwise (fun a b => strLt a.key b.key = true) :=
        hpair.sublist hsub
      have hsorted : List.Sorted entryLe (done ++ [e]) :=
        hp.imp (fun h => entryLe_of_strLt h)
      rw [List.Sorted.insertionSort_eq hsorted]
    rw [hins]
    have hrec := ih (done ++ [e]) (by simpa [List.append_assoc] using hpair)
      (fun e' h' => hkeys e' (List.mem_cons_of_mem e h'))
    simpa [List.append_assoc] using hrec

/-- C8: saving a table and loading the snapshot back yields a table with
the same schema and the same entry list - hence the same set of rows -
for any table satisfying the engine invariant, with any number of
rows. -/
theorem c8_roundtrip (t : Table) (path : String) (hinv : TableInv t) :
    (loadTable path t.save).schema = t.schema ∧
      (loadTable path t.save).index.data = t.index.data := by
  refine ⟨rfl, ?_⟩
  unfold loadTable Table.save
  simp only
  have hfold := load_foldl t.primaryKey 3 t.index.data [] (by simpa using hinv.1) hinv.2
  have hdata := congrArg BPTree.data hfold
  simpa [BPTree.getAll, NewBPTree, Table.primaryKey] using hdata

/-- C8 witness: the round trip at a concrete one-row table. -/
theorem c8_roundtrip_witness :
    (loadTable "data/t.tbl" c3Table.save).schema = c3Table.schema ∧
      (loadTable "data/t.tbl" c3Table.save).index.data = c3Table.index.data :=
  c8_roundtrip c3Table "data/t.tbl" (by decide)

theorem likeSpec_nil : ∀ p : List Char, likeSpec p [] = p.all (fun c => c == '%') := by
  intro p
  induction p with
  | nil => rfl
  | cons c ps ih =>
    by_cases hc : c = '%'
    · simp [likeSpec, hc, ih]
    · simp [likeSpec, hc]

theorem likeSpec_star_expand (ps : List Char) (v : List Char) :
    likeSpec ('%' :: ps) v = v.tails.any (fun s => likeSpec ps s) := by
  simp [likeSpec]

theorem likeSpec_star_cons (ps : List Char) (x : Char) (w : List Char)
    (h : likeSpec ('%' :: ps) w = true) : likeSpec ('%' :: ps) (x :: w) = true := by
  rw [likeSpec_star_expand] at h
  rw [likeSpec_star_expand, List.tails_cons, List.any_cons, h]
  simp

theorem likeSpec_star_append (ps : List Char) (u w : List Char)
    (h : likeSpec ('%' :: ps) w = true) : likeSpec ('%' :: ps) (u ++ w) = true := by
  induction u with
  | nil => simpa using h
  | cons x xs ih => simpa using likeSpec_star_cons ps x (xs ++ w) ih

theorem likeSpec_star_suffix (ps : List Char) {u w : List Char} (hs : List.IsSuffix u w)
    (h : likeSpec ('%' :: ps) u = true) : likeSpec ('%' :: ps) w = true := by
  obtain ⟨t, rfl⟩ := hs
  exact likeSpec_star_append ps t u h

theorem segMatch_length : ∀ q w : List Char, segMatch q w = true → q.length = w.length := by
  intro q
  induction q with
  | nil =>
    intro w h
    cases w with
    | nil => rfl
    | cons x xs => simp [segMatch] at h
  | cons c q' ih =>
    intro w h
    cases w with
    | nil => simp [segMatch] at h
    | cons x xs =>
      simp only [segMatch, Bool.and_eq_true] at h
      simp [ih xs h.2]

theorem segMatch_snoc : ∀ (q w : List Char) {c x : Char}, segMatch q w = true →
    (c == '_' || c == x) = true → segMatch (q ++ [c]) (w ++ [x]) = true := by
  intro q
  induction q with
  | nil =>
    intro w c x h hcx
    cases w with
    | nil => simpa [segMatch] using hcx
    | cons y ys => simp [segMatch] at h
  | cons d q' ih =>
    intro w c x h hcx
    cases w with
    | nil => simp [segMatch] at h
    | cons y ys =>
      simp only [segMatch, Bool.and_eq_true] at h
      simp only [List.cons_append, segMatch, Bool.and_eq_true]
      exact ⟨h.1, ih ys h.2 hcx⟩

theorem likeSpec_append_noPercent : ∀ (q r w : List Char), (∀ c ∈ q, c ≠ '%') →
    (likeSpec (q ++ r) w = true ↔
      ∃ w1 w2, w = w1 ++ w2 ∧ segMatch q w1 = true ∧ likeSpec r w2 = true) := by
  intro q
  induction q with
  | nil =>
    intro r w _
    constructor
    · intro h
      exact ⟨[], w, rfl, rfl, by simpa using h⟩
    · rintro ⟨w1, w2, hsplit, hseg, hr⟩
      have hw1 : w1 = [] := by
        cases w1 with
        | nil => rfl
        | cons y ys => simp [segMatch] at hseg
      subst hw1
      simpa [hsplit] using hr
  | cons c q' ih =>
    intro r w hq
    have hc : c ≠ '%' := hq c (List.mem_cons_self c q')
    constructor
    · intro h
      cases w with
      | nil => simp [likeSpec, hc] at h
      | cons x xs =>
        simp only [List.cons_append, likeSpec, if_neg hc, Bool.and_eq_true] at h
        obtain ⟨w1, w2, hsplit, hseg, hr⟩ :=
          (ih r xs (fun d hd => hq d (List.mem_cons_of_mem c hd))).mp h.2
        exact ⟨x :: w1, w2, by simp [hsplit], by simp [segMatch, h.1, hseg], hr⟩
    · rintro ⟨w1, w2, rfl, hseg, hr⟩
      cases w1 with
      | nil => simp [segMatch] at hseg
      | cons x w1' =>
        simp only [segMatch, Bool.and_eq_true] at hseg
        simp only [List.cons_append, likeSpec, if_neg hc, Bool.and_eq_true]
        exact ⟨hseg.1, (ih r (w1' ++ w2) (fun d hd => hq d (List.mem_cons_of_mem c hd))).mpr
          ⟨w1', w2, rfl, hseg.2, hr⟩⟩

theorem suffix_of_suffix_append {u w1 w2 : List Char}
    (h : List.IsSuffix u (w1 ++ w2)) (hl : u.length ≤ w2.length) : List.IsSuffix u w2 := by
  obtain ⟨t, ht⟩ := h
  have hlen : t.length + u.length = w1.length + w2.length := by
    rw [← List.length_append, ht, List.length_append]
  have hu : u = (w1 ++ w2).drop t.length := by
    rw [← ht, List.drop_left]
  have hw1t : w1.length ≤ t.length := by omega
  have hstep : (w1 ++ w2).drop t.length = w2.drop (t.length - w1.length) := by
    conv_lhs => rw [show t.length = w1.length + (t.length - w1.length) from by omega]
    rw [← List.drop_drop, List.drop_left]
  rw [hu, hstep]
  exact List.drop_suffix _ _

theorem likeSpec_shift (q r w1 w2 : List Char) (hq : ∀ c ∈ q, c ≠ '%')
    (hseg : segMatch q w1 = true) :
    likeSpec ('%' :: (q ++ '%' :: r)) (w1 ++ w2) = likeSpec ('%' :: r) w2 := by
  have hqw : q.length = w1.length := segMatch_length q w1 hseg
  have hforward : likeSpec ('%' :: (q ++ '%' :: r)) (w1 ++ w2) = true →
      likeSpec ('%' :: r) w2 = true := by
    intro hA
    rw [likeSpec_star_expand, List.any_eq_true] at hA
    obtain ⟨s', hmem, hs'⟩ := hA
    have hsfx : List.IsSuffix s' (w1 ++ w2) := (List.mem_tails s' (w1 ++ w2)).mp hmem
    obtain ⟨u1, u2, hsplit, hseg', hr⟩ := (likeSpec_append_noPercent q ('%' :: r) s' hq).mp hs'
    have hu1 : u1.length = q.length := (segMatch_length q u1 hseg').symm
    have hsuf2 : List.IsSuffix u2 (w1 ++ w2) :=
      List.IsSuffix.trans (hsplit ▸ List.suffix_append u1 u2) hsfx
    have hslen : s'.length ≤ w1.length + w2.length := by
      have := hsfx.length_le
      simpa using this
    have hu2len : u2.length ≤ w2.length := by
      have : s'.length = u1.length + u2.length := by simp [hsplit]
      omega
    exact likeSpec_star_suffix r (suffix_of_suffix_append hsuf2 hu2len) hr
  have hback : likeSpec ('%' :: r) w2 = true →
      likeSpec ('%' :: (q ++ '%' :: r)) (w1 ++ w2) = true := by
    intro hB
    rw [likeSpec_star_expand, List.any_eq_true]
    refine ⟨w1 ++ w2, (List.mem_tails _ _).mpr (List.suffix_refl _), ?_⟩
    exact (likeSpec_append_noPercent q ('%' :: r) (w1 ++ w2) hq).mpr ⟨w1, w2, rfl, hseg, hB⟩
  cases hA : likeSpec ('%' :: (q ++ '%' :: r)) (w1 ++ w2) with
  | true => exact (hforward hA).symm
  | false =>
    cases hB : likeSpec ('%' :: r) w2 with
    | false => rfl
    | true =>
      rw [hback hB] at hA
      exact absurd hA (by simp)

theorem likeSpec_stuck (value pattern : List Char) (i j : Nat)
    (hi : i < value.length) (hj : j ≤ pattern.length)
    (h1 : ¬(j < pattern.length ∧ pattern.getD j ' ' = '%'))
    (h2 : ¬(j < pattern.length ∧
      (pattern.getD j ' ' = '_' ∨ pattern.getD j ' ' = value.getD i ' '))) :
    likeSpec (pattern.drop j) (value.drop i) = false := by
  by_cases hjP : j < pattern.length
  · have hcp : pattern.getD j ' ' ≠ '%' := fun h => h1 ⟨hjP, h⟩
    have hcu : ¬(pattern.getD j ' ' = '_' ∨ pattern.getD j ' ' = value.getD i ' ') :=
      fun h => h2 ⟨hjP, h⟩
    push_neg at hcu
    rw [List.drop_eq_getElem_cons hjP, List.drop_eq_getElem_cons hi]
    have hgj : pattern[j] = pattern.getD j ' ' := (List.getD_eq_getElem pattern ' ' hjP).symm
    have hgi : value[i] = value.getD i ' ' := (List.getD_eq_getElem value ' ' hi).symm
    rw [hgj, hgi]
    obtain ⟨hc1, hc2⟩ := hcu
    revert hcp hc1 hc2
    generalize pattern.getD j ' ' = c
    generalize value.getD i ' ' = x
    intro hcp hc1 hc2
    simp only [likeSpec, if_neg hcp]
    simp [hc1, hc2]
  · have hjeq : j = pattern.length := le_antisymm hj (not_lt.mp hjP)
    rw [List.drop_eq_nil_of_le (le_of_eq hjeq.symm)]
    simp [likeSpec]
    exact hi

theorem likeSpec_end_star (q r w : List Char) (hq : ∀ c ∈ q, c ≠ '%')
    (hseg : segMatch q w = true) :
    likeSpec ('%' :: (q ++ r)) w = r.all (fun c => c == '%') := by
  have hqw : q.length = w.length := segMatch_length q w hseg
  have hforward : likeSpec ('%' :: (q ++ r)) w = true → r.all (fun c => c == '%') = true := by
    intro hA
    rw [likeSpec_star_expand, List.any_eq_true] at hA
    obtain ⟨s', hmem, hs'⟩ := hA
    have hsfx : List.IsSuffix s' w := (List.mem_tails s' w).mp hmem
    obtain ⟨u1, u2, hsplit, hseg', hr⟩ := (likeSpec_append_noPercent q r s' hq).mp hs'
    have hu1 : u1.length = q.length := (segMatch_length q u1 hseg').symm
    have hslen : s'.length ≤ w.length := hsfx.length_le
    have hu2nil : u2 = [] := by
      have hsl : s'.length = u1.length + u2.length := by simp [hsplit]
      have : u2.length = 0 := by omega
      exact List.length_eq_zero.mp this
    subst hu2nil
    rw [likeSpec_nil] at hr
    exact hr
  have hback : r.all (fun c => c == '%') = true → likeSpec ('%' :: (q ++ r)) w = true := by
    intro hB
    rw [likeSpec_star_expand, List.any_eq_true]
    refine ⟨w, (List.mem_tails _ _).mpr (List.suffix_refl _), ?_⟩
    refine (likeSpec_append_noPercent q r w hq).mpr ⟨w, [], by simp, hseg, ?_⟩
    rw [likeSpec_nil]
    exact hB
  cases hA : likeSpec ('%' :: (q ++ r)) w with
  | true => exact (hforward hA).symm
  | false =>
    cases hB : r.all (fun c => c == '%') with
    | false => rfl
    | true =>
      rw [hback hB] at hA
      exact absurd hA (by simp)

theorem matchLoop_eq_spec (value pattern : List Char) :
    ∀ (fuel i j m : Nat) (star : Option Nat), matchInv value pattern i j m star →
      (value.length - m) * (pattern.length + 1) + (pattern.length + 1 - j) ≤ fuel →
      matchLoop value pattern fuel i j m star = loopSpec value pattern i j m star := by
  intro fuel
  induction fuel with
  | zero =>
    intro i j m star hinv hfuel
    exfalso
    have hj : j ≤ pattern.length := by
      cases star with
      | none => exact hinv.2.2
      | some s => exact hinv.2.1
    omega
  | succ fuel ih =>
    intro i j m star hinv hfuel
    by_cases hi : i < value.length
    · by_cases hjs : j < pattern.length ∧ pattern.getD j ' ' = '%'
      · -- the pattern cursor sits on a percent: record it and advance j
        have hm_le_i : m ≤ i := by
          cases star with
          | none => exact hinv.1
          | some s => exact hinv.2.2.1
        have hinv' : matchInv value pattern i (j + 1) i (some j) := by
          refine ⟨Nat.lt_succ_self j, hjs.1, le_refl i, le_of_lt hi, hjs.2, by omega, ?_, ?_⟩
          · intro c hc
            simp at hc
          · simp [segMatch]
        have hfuel' : (value.length - i) * (pattern.length + 1)
            + (pattern.length + 1 - (j + 1)) ≤ fuel := by
          have hmul : (value.length - i) * (pattern.length + 1)
              ≤ (value.length - m) * (pattern.length + 1) :=
            Nat.mul_le_mul_right _ (Nat.sub_le_sub_left hm_le_i _)
          have hjlt := hjs.1
          revert hfuel hmul hjlt
          generalize (value.length - i) * (pattern.length + 1) = A
          generalize (value.length - m) * (pattern.length + 1) = B
          intro hfuel hmul hjlt
          omega
        have hstep : matchLoop value pattern (fuel + 1) i j m star
            = matchLoop value pattern fuel i (j + 1) i (some j) := by
          simp only [matchLoop, if_pos hi, if_pos hjs]
        rw [hstep, ih i (j + 1) i (some j) hinv' hfuel']
        have hpj : pattern[j] = '%' := by
          rw [← List.getD_eq_getElem pattern ' ' hjs.1]
          exact hjs.2
        cases star with
        | none =>
          simp only [loopSpec]
          rw [List.drop_eq_getElem_cons hjs.1, hpj]
        | some s =>
          obtain ⟨hsj, hjP, hmi, hiLe, hps, hcount, hnope, hseg⟩ := hinv
          simp only [loopSpec]
          have hq2 : (pattern.drop (s + 1)).drop (j - (s + 1)) = pattern.drop j := by
            rw [List.drop_drop]
            congr 1
            omega
          have hdj : pattern.drop j = pattern[j] :: pattern.drop (j + 1) :=
            List.drop_eq_getElem_cons hjs.1
          have hdecomp : pattern.drop (s + 1)
              = (pattern.drop (s + 1)).take (j - (s + 1)) ++ '%' :: pattern.drop (j + 1) := by
            conv_lhs => rw [← List.take_append_drop (j - (s + 1)) (pattern.drop (s + 1))]
            rw [hq2, hdj, hpj]
          have hw : (value.drop m).take (i - m) ++ value.drop i = value.drop m := by
            have hdd : (value.drop m).drop (i - m) = value.drop i := by
              rw [List.drop_drop]
              congr 1
              omega
            conv_rhs => rw [← List.take_append_drop (i - m) (value.drop m)]
            rw [hdd]
          rw [hdecomp, ← hw]
          exact (likeSpec_shift _ _ _ _ hnope hseg).symm
      · by_cases hadv : j < pattern.length ∧
            (pattern.getD j ' ' = '_' ∨ pattern.getD j ' ' = value.getD i ' ')
        · -- literal or underscore match: advance both cursors
          have hpne : pattern.getD j ' ' ≠ '%' := fun h => hjs ⟨hadv.1, h⟩
          have hinv' : matchInv value pattern (i + 1) (j + 1) m star := by
            cases star with
            | none =>
              exact ⟨Nat.le_succ_of_le hinv.1, Nat.succ_le_of_lt hi, Nat.succ_le_of_lt hadv.1⟩
            | some s =>
              obtain ⟨hsj, hjP, hmi, hiLe, hps, hcount, hnope, hseg⟩ := hinv
              have htp : (pattern.drop (s + 1)).take ((j + 1) - (s + 1))
                  = (pattern.drop (s + 1)).take (j - (s + 1)) ++ [pattern.getD j ' '] := by
                have h1 : (j + 1) - (s + 1) = (j - (s + 1)) + 1 := by omega
                rw [h1, List.take_succ]
                congr 1
                have h2 : (pattern.drop (s + 1))[j - (s + 1)]? = pattern[j]? := by
                  rw [List.getElem?_drop]
                  congr 1
                  omega
                rw [h2, List.getElem?_eq_getElem hadv.1]
                simp only [List.getD_eq_getElem pattern ' ' hadv.1, Option.toList_some]
              have htv : (value.drop m).take ((i + 1) - m)
                  = (value.drop m).take (i - m) ++ [value.getD i ' '] := by
                have h1 : (i + 1) - m = (i - m) + 1 := by omega
                rw [h1, List.take_succ]
                congr 1
                have h2 : (value.drop m)[i - m]? = value[i]? := by
                  rw [List.getElem?_drop]
                  congr 1
                  omega
                rw [h2, List.getElem?_eq_getElem hi]
                simp only [List.getD_eq_getElem value ' ' hi, Option.toList_some]
              refine ⟨Nat.lt_succ_of_lt hsj, Nat.succ_le_of_lt hadv.1, Nat.le_succ_of_le hmi,
                Nat.succ_le_of_lt hi, hps, by omega, ?_, ?_⟩
              · intro c hc
                rw [htp] at hc
                rcases List.mem_append.mp hc with hc | hc
                · exact hnope c hc
                · rw [List.mem_singleton] at hc
                  rw [hc]
                  exact hpne
              · rw [htp, htv]
                refine segMatch_snoc _ _ hseg ?_
                rcases hadv.2 with h | h
                · rw [h]
                  simp
                · rw [h]
                  simp
          have hfuel' : (value.length - m) * (pattern.length + 1)
              + (pattern.length + 1 - (j + 1)) ≤ fuel := by
            have hjlt := hadv.1
            revert hfuel hjlt
            generalize (value.length - m) * (pattern.length + 1) = B
            intro hfuel hjlt
            omega
          have hstep : matchLoop value pattern (fuel + 1) i j m star
              = matchLoop value pattern fuel (i + 1) (j + 1) m star := by
            simp only [matchLoop, if_pos hi, if_neg hjs, if_pos hadv]
          rw [hstep, ih (i + 1) (j + 1) m star hinv' hfuel']
          cases star with
          | some s => rfl
          | none =>
            simp only [loopSpec]
            rw [List.drop_eq_getElem_cons hadv.1, List.drop_eq_getElem_cons hi]
            have hcne : pattern[j] ≠ '%' := by
              rw [← List.getD_eq_getElem pattern ' ' hadv.1]
              exact hpne
            have hmatch : (pattern[j] == '_' || pattern[j] == value[i]) = true := by
              rcases hadv.2 with h | h
              · rw [← List.getD_eq_getElem pattern ' ' hadv.1, h]
                simp
              · rw [← List.getD_eq_getElem pattern ' ' hadv.1,
                  ← List.getD_eq_getElem value ' ' hi, h]
                simp
            simp only [likeSpec, if_neg hcne]
            rw [hmatch, Bool.true_and]
        · -- no step possible at (i, j): backtrack on the last percent or fail
          cases star with
          | none =>
            have hstep : matchLoop value pattern (fuel + 1) i j m none = false := by
              simp only [matchLoop, if_pos hi, if_neg hjs, if_neg hadv]
            rw [hstep]
            exact (likeSpec_stuck value pattern i j hi hinv.2.2 hjs hadv).symm
          | some s =>
            obtain ⟨hsj, hjP, hmi, hiLe, hps, hcount, hnope, hseg⟩ := hinv
            have hinv' : matchInv value pattern (m + 1) (s + 1) (m + 1) (some s) := by
              refine ⟨Nat.lt_succ_self s, by omega, le_refl _, by omega, hps, by omega, ?_, ?_⟩
              · intro c hc
                simp at hc
              · simp [segMatch]
            have hfuel' : (value.length - (m + 1)) * (pattern.length + 1)
                + (pattern.length + 1 - (s + 1)) ≤ fuel := by
              have hBsplit : (value.length - m) * (pattern.length + 1)
                  = (value.length - (m + 1)) * (pattern.length + 1) + (pattern.length + 1) := by
                have hLm : value.length - m = (value.length - (m + 1)) + 1 := by omega
                rw [hLm, Nat.succ_mul]
              revert hfuel hBsplit
              generalize (value.length - (m + 1)) * (pattern.length + 1) = A
              generalize (value.length - m) * (pattern.length + 1) = B
              intro hfuel hBsplit
              omega
            have hstep : matchLoop value pattern (fuel + 1) i j m (some s)
                = matchLoop value pattern fuel (m + 1) (s + 1) (m + 1) (some s) := by
              simp only [matchLoop, if_pos hi, if_neg hjs, if_neg hadv]
            rw [hstep, ih (m + 1) (s + 1) (m + 1) (some s) hinv' hfuel']
            simp only [loopSpec]
            have hq2 : (pattern.drop (s + 1)).drop (j - (s + 1)) = pattern.drop j := by
              rw [List.drop_drop]
              congr 1
              omega
            have hdecomp : pattern.drop (s + 1)
                = (pattern.drop (s + 1)).take (j - (s + 1)) ++ pattern.drop j := by
              conv_lhs => rw [← List.take_append_drop (j - (s + 1)) (pattern.drop (s + 1))]
              rw [hq2]
            have hqlen : ((pattern.drop (s + 1)).take (j - (s + 1))).length = i - m := by
              rw [List.length_take, List.length_drop]
              omega
            have hfail : likeSpec (pattern.drop (s + 1)) (value.drop m) = false := by
              cases hLS : likeSpec (pattern.drop (s + 1)) (value.drop m) with
              | false => rfl
              | true =>
                exfalso
                rw [hdecomp] at hLS
                obtain ⟨u1, u2, hsplit, hseg', hr⟩ :=
                  (likeSpec_append_noPercent _ _ _ hnope).mp hLS
                have hu1len : u1.length = i - m :=
                  (segMatch_length _ u1 hseg').symm.trans hqlen
                have hu2 : u2 = value.drop i := by
                  have hdrop : u2 = (value.drop m).drop u1.length := by
                    rw [hsplit, List.drop_left]
                  rw [hdrop, hu1len, List.drop_drop]
                  congr 1
                  omega
                rw [hu2] at hr
                have hstk := likeSpec_stuck value pattern i j hi hjP hjs hadv
                simp [hstk] at hr
            have hm_lt : m < value.length := lt_of_le_of_lt hmi hi
            have hcons : value.drop m = value[m] :: value.drop (m + 1) :=
              List.drop_eq_getElem_cons hm_lt
            rw [hcons, likeSpec_star_expand, likeSpec_star_expand, List.tails_cons,
              List.any_cons]
            have hfirst : likeSpec (pattern.drop (s + 1)) (value[m] :: value.drop (m + 1))
                = false := by
              rw [← hcons]
              exact hfail
            rw [hfirst]
            simp
    · -- value exhausted: only trailing percents may remain
      have hstep : matchLoop value pattern (fuel + 1) i j m star
          = (pattern.drop j).all (fun c => c == '%') := by
        simp only [matchLoop, if_neg hi]
      rw [hstep]
      cases star with
      | none =>
        obtain ⟨hmi, hiLe, hjP⟩ := hinv
        have hieq : i = value.length := le_antisymm hiLe (not_lt.mp hi)
        simp only [loopSpec]
        rw [hieq, List.drop_eq_nil_of_le (le_refl _)]
        exact (likeSpec_nil _).symm
      | some s =>
        obtain ⟨hsj, hjP, hmi, hiLe, hps, hcount, hnope, hseg⟩ := hinv
        have hieq : i = value.length := le_antisymm hiLe (not_lt.mp hi)
        simp only [loopSpec]
        have hq2 : (pattern.drop (s + 1)).drop (j - (s + 1)) = pattern.drop j := by
          rw [List.drop_drop]
          congr 1
          omega
        have hdecomp : pattern.drop (s + 1)
            = (pattern.drop (s + 1)).take (j - (s + 1)) ++ pattern.drop j := by
          conv_lhs => rw [← List.take_append_drop (j - (s + 1)) (pattern.drop (s + 1))]
          rw [hq2]
        have hwfull : (value.drop m).take (i - m) = value.drop m := by
          apply List.take_of_length_le
          rw [List.length_drop]
          omega
        rw [hwfull] at hseg
        rw [hdecomp]
        exact (likeSpec_end_star _ _ _ hnope hseg).symm

/-- C4: the two-pointer backtracking wildcard matcher agrees with the
declarative anchored LIKE semantics (`%` matches any run of characters,
`_` exactly one, anything else itself, across the whole value), and the
five concrete cases of the claim evaluate as stated. -/
theorem c4_like_matcher :
    (∀ value pattern : List Char, matchPatternL value pattern = likeSpec pattern value) ∧
      matchPattern "abc123" "a%3" = true ∧
      matchPattern "abc" "a_c" = true ∧
      matchPattern "abc" "a_" = false ∧
      matchPattern "" "%" = true ∧
      matchPattern "" "_" = false := by
  refine ⟨?_, by decide, by decide, by decide, by decide, by decide⟩
  intro value pattern
  have hinv : matchInv value pattern 0 0 0 none := ⟨le_refl 0, Nat.zero_le _, Nat.zero_le _⟩
  have hfuel : (value.length - 0) * (pattern.length + 1) + (pattern.length + 1 - 0)
      ≤ (value.length + 1) * (pattern.length + 1) := by
    have h1 : (value.length + 1) * (pattern.length + 1)
        = value.length * (pattern.length + 1) + (pattern.length + 1) := by
      ring
    simp only [Nat.sub_zero]
    revert h1
    generalize value.length * (pattern.length + 1) = A
    generalize (value.length + 1) * (pattern.length + 1) = C
    intro h1
    omega
  have hrun := matchLoop_eq_spec value pattern ((value.length + 1) * (pattern.length + 1))
    0 0 0 none hinv hfuel
  simpa [matchPatternL, loopSpec] using hrun
